import Mathlib

/-!
Verification of the rentalcar price-watcher core.

Shallow embedding of the source files:
  src/lib/scraper.ts   (parsePriceText, extractPricesFromPage, fetchPrices)
  src/lib/stats.ts     (percentile, median, average, computeStats, isCheap)
  src/lib/db.ts        (appendRun, the Run record type)
  src/app/api/run/route.ts and src/app/api/ingest/route.ts (record construction)

JavaScript numbers are modelled as rationals (ℚ); strings as lists of
characters. Fallible operations return Option.
-/

namespace RentalCar

/-! ## Character classes used by the scraper -/

/-- Characters kept by the regex replace `/[^\d.,]/g` in `parsePriceText`:
digits, periods and commas. The same class `[\d.,]` is the body of the
currency-anchored fallback regex groups. -/
def isPriceChar (c : Char) : Bool := c.isDigit || c = '.' || c = ','

/-- The character class `[\d.]` of the token-extraction regex `/[\d.]+/`. -/
def isDigitDot (c : Char) : Bool := c.isDigit || c = '.'

/-- JavaScript whitespace as relevant to `String.prototype.trim` and `\s`
(for the ASCII characters that can actually occur here). -/
def isSpaceJS (c : Char) : Bool :=
  c = ' ' || c = '\t' || c = '\n' || c = '\r' || c = '\u000B' || c = '\u000C'

/-- Numeric value of a decimal digit string, as produced by reading the
digits left to right (the integer part of a JavaScript `parseFloat`). -/
def digitsToNat (cs : List Char) : ℕ :=
  cs.foldl (fun a c => 10 * a + (c.toNat - 48)) 0

/-! ## parsePriceText (src/lib/scraper.ts lines 22-31) -/

/-- Model of `text.replace(",", ".")`: JavaScript `replace` with a string
pattern replaces only the first occurrence. -/
def replaceFirstComma : List Char → List Char
  | [] => []
  | c :: rest => if c = ',' then '.' :: rest else c :: replaceFirstComma rest

/-- Model of `normalized.match(/[\d.]+/)`: the first maximal run of
digit-or-period characters, if any. -/
def firstRun : List Char → Option (List Char)
  | [] => none
  | c :: rest =>
    if isDigitDot c then some (c :: rest.takeWhile isDigitDot)
    else firstRun rest

/-- Model of JavaScript `parseFloat` restricted to inputs drawn from the
alphabet of digits, periods and commas (the only strings it is applied to in
the source): an optional integer digit run, optionally followed by a period
and a fractional digit run; anything after that is ignored. `none` models
`NaN`. -/
def parseFloatDP (cs : List Char) : Option ℚ :=
  let ds := cs.takeWhile Char.isDigit
  match cs.dropWhile Char.isDigit with
  | c :: r2 =>
    if c = '.' then
      let fs := r2.takeWhile Char.isDigit
      if ds.length = 0 ∧ fs.length = 0 then none
      else some ((digitsToNat ds : ℚ) + (digitsToNat fs : ℚ) / (10 : ℚ) ^ fs.length)
    else if ds.length = 0 then none else some ((digitsToNat ds : ℚ))
  | [] => if ds.length = 0 then none else some ((digitsToNat ds : ℚ))

/-- `const normalized = text.replace(/[^\d.,]/g, "").replace(",", ".")`. -/
def normalizedOf (text : List Char) : List Char :=
  replaceFirstComma (text.filter isPriceChar)

/-- Model of `parsePriceText` from src/lib/scraper.ts: empty/blank guard,
normalization, token match, `parseFloat`, then the validity gate
`Number.isFinite(v) && v > 0 && v < 100_000`. -/
def parsePriceText (text : List Char) : Option ℚ :=
  if text.all isSpaceJS = true then none
  else
    match firstRun (normalizedOf text) with
    | some tok =>
      match parseFloatDP tok with
      | some v => if 0 < v ∧ v < 100000 then some v else none
      | none => none
    | none => none

/-- The inline parse/validate rule of the full-text fallback in
`extractPricesFromPage`: `const v = parseFloat(g.replace(",", "."));`
accepted when `v > 0 && v < 100_000` (`NaN` fails both comparisons). -/
def fallbackParse (g : List Char) : Option ℚ :=
  match parseFloatDP (replaceFirstComma g) with
  | some v => if 0 < v ∧ v < 100000 then some v else none
  | none => none

/-! ## extractPricesFromPage (src/lib/scraper.ts lines 33-80) -/

/-- One step of the fallback regex `/€\s*([\d.,]+)|([\d.,]+)\s*€/g` attempted
at the current position: on success returns the captured group together with
the number of characters the whole match consumed. The three character
classes (`€`, `\s`, `[\d.,]`) are pairwise disjoint, so the greedy scan needs
no backtracking. -/
def tryMatchEuro (cs : List Char) : Option (List Char × ℕ) :=
  match cs with
  | [] => none
  | c :: rest =>
    if c = '€' then
      let ws := rest.takeWhile isSpaceJS
      let t := (rest.dropWhile isSpaceJS).takeWhile isPriceChar
      if t.length = 0 then none else some (t, 1 + ws.length + t.length)
    else if isPriceChar c then
      let t := (c :: rest).takeWhile isPriceChar
      let afterT := (c :: rest).dropWhile isPriceChar
      let ws := afterT.takeWhile isSpaceJS
      match afterT.dropWhile isSpaceJS with
      | e :: _ => if e = '€' then some (t, t.length + ws.length + 1) else none
      | [] => none
    else none

/-- Global regex scan: at each position try a match; on success continue
after the match, on failure advance one character (fuel bounds the walk). -/
def scanEuroAux : ℕ → List Char → List (List Char)
  | 0, _ => []
  | _, [] => []
  | fuel + 1, c :: rest =>
    match tryMatchEuro (c :: rest) with
    | some (g, n) => g :: scanEuroAux fuel ((c :: rest).drop n)
    | none => scanEuroAux fuel rest

/-- All captured groups of the fallback regex over the document body text. -/
def scanEuro (cs : List Char) : List (List Char) := scanEuroAux cs.length cs

/-- Abstraction of the rendered page handle: `probeTexts sel` is the list of
trimmed `innerText`s of the elements matched by `page.$$(sel)`, and `none`
models the selector probe throwing (swallowed by the `try/catch`);
`bodyText` is `document.body.innerText`. -/
structure Page where
  probeTexts : String → Option (List (List Char))
  bodyText : List Char

/-- The prioritized structural selector list from `extractPricesFromPage`. -/
def selectors : List String :=
  ["[data-testid*=\"price\"]",
   "[data-testid*=\"total\"]",
   ".price",
   ".totalPrice",
   "[class*=\"Price\"]",
   "[class*=\"price\"]",
   "span[class*=\"amount\"]"]

/-- `if (p != null && !seen.has(p)) { seen.add(p); prices.push(p); }`: the
`seen` set always holds exactly the values already in `prices`, so
membership in the accumulator models it. -/
def addPrice (acc : List ℚ) (p : ℚ) : List ℚ :=
  if p ∈ acc then acc else acc ++ [p]

/-- The structural probing phase: for each selector, a throwing probe
contributes nothing, otherwise every element text is parsed and accepted
values are pushed if unseen. -/
def collectStructural (page : Page) : List ℚ :=
  selectors.foldl
    (fun acc sel =>
      match page.probeTexts sel with
      | none => acc
      | some texts =>
        texts.foldl
          (fun acc t =>
            match parsePriceText t with
            | some p => addPrice acc p
            | none => acc)
          acc)
    []

/-- The full-text fallback phase, run on the body text. -/
def collectFallback (acc : List ℚ) (body : List Char) : List ℚ :=
  (scanEuro body).foldl
    (fun acc g =>
      match fallbackParse g with
      | some v => addPrice acc v
      | none => acc)
    acc

/-- Ascending numeric sort, modelling `prices.sort((a, b) => a - b)`. -/
def sortQ (l : List ℚ) : List ℚ := List.insertionSort (· ≤ ·) l

/-- Model of `extractPricesFromPage`: structural probes first, the fallback
only when they produced nothing, then the ascending sort. -/
def extractPricesFromPage (page : Page) : List ℚ :=
  let prices := collectStructural page
  let prices := if prices.length = 0 then collectFallback prices page.bodyText else prices
  sortQ prices

/-- Model of the minimum computed in `fetchPrices`:
`if (all_prices.length > 0) result.min_price = Math.min(...all_prices)`. -/
def minPrice : List ℚ → Option ℚ
  | [] => none
  | p :: rest => some (rest.foldl min p)

/-! ## Run records and the stats engine (src/lib/db.ts, src/lib/stats.ts) -/

/-- The persisted `Run` record type from src/lib/db.ts. -/
structure Run where
  run_at : String
  pickup_date : String
  dropoff_date : String
  rental_days : ℚ
  min_total_price : Option ℚ
  min_price_per_day : Option ℚ
  num_offers : ℚ
  url : Option String

/-- `runs.map((r) => r.min_price_per_day).filter((p): p is number => p != null && p > 0)`:
the usable strictly-positive per-day price series. -/
def usablePrices (runs : List Run) : List ℚ :=
  (runs.map (fun r => r.min_price_per_day)).filterMap
    (fun p =>
      match p with
      | some v => if 0 < v then some v else none
      | none => none)

/-- Model of `average` from src/lib/stats.ts. -/
def average (values : List ℚ) : Option ℚ :=
  if values.length = 0 then none
  else some (values.foldl (· + ·) 0 / (values.length : ℚ))

/-- Model of `median` from src/lib/stats.ts; the `s[...]!` non-null
assertions are modelled by `getD` (the indices are provably in bounds). -/
def median (values : List ℚ) : Option ℚ :=
  if values.length = 0 then none
  else
    let s := sortQ values
    let n := s.length
    if n % 2 = 1 then some (s.getD (n / 2) 0)
    else some ((s.getD (n / 2 - 1) 0 + s.getD (n / 2) 0) / 2)

/-- Model of `percentile` from src/lib/stats.ts. `s[Math.floor(k)] ?? null`
becomes an optional lookup; the interpolation branch uses `getD` for the
`s[f]!` and `s[c]!` assertions. -/
def percentile (values : List ℚ) (p : ℚ) : Option ℚ :=
  if values.length = 0 ∨ p < 0 ∨ 1 < p then none
  else
    let s := sortQ values
    let k : ℚ := ((s.length : ℚ) - 1) * p
    let f : ℤ := ⌊k⌋
    let c : ℤ := ⌈k⌉
    if f = c then s[(⌊k⌋).toNat]?
    else some (s.getD f.toNat 0 * ((c : ℚ) - k) + s.getD c.toNat 0 * (k - (f : ℚ)))

/-- The result record of `computeStats`. -/
structure StatsResult where
  count : ℕ
  avgPerDay : Option ℚ
  medianPerDay : Option ℚ
  p25PerDay : Option ℚ
deriving DecidableEq

/-- Model of `computeStats` from src/lib/stats.ts. -/
def computeStats (runs : List Run) : StatsResult :=
  let prices := usablePrices runs
  { count := runs.length
    avgPerDay := average prices
    medianPerDay := median prices
    p25PerDay := percentile prices (1 / 4) }

/-- The result record of `isCheap`. -/
structure CheapResult where
  cheap : Bool
  threshold : Option ℚ
deriving DecidableEq

/-- Model of `isCheap` from src/lib/stats.ts. -/
def isCheap (currentPricePerDay : ℚ) (runs : List Run) (cheapPercentile : ℚ) :
    CheapResult :=
  let prices := usablePrices runs
  if prices.length < 3 then { cheap := true, threshold := none }
  else
    match percentile prices cheapPercentile with
    | none => { cheap := false, threshold := none }
    | some th => { cheap := decide (currentPricePerDay ≤ th), threshold := some th }

/-! ## appendRun (src/lib/db.ts lines 31-37, identically src/unnamed/part_000) -/

/-- `MAX_RUNS` from src/lib/db.ts. -/
def MAX_RUNS : ℕ := 500

/-- Model of `appendRun`: push, then keep `runs.slice(-MAX_RUNS)` (the most
recent `MAX_RUNS` entries). The Redis read/write wrapping is external state
passing. -/
def appendRun (runs : List Run) (run : Run) : List Run :=
  let runs2 := runs ++ [run]
  runs2.drop (runs2.length - MAX_RUNS)

/-! ## Record construction (src/app/api/run/route.ts, src/app/api/ingest/route.ts) -/

/-- The `ScrapeResult` shape from src/lib/scraper.ts. -/
structure ScrapeResult where
  min_price : Option ℚ
  all_prices : List ℚ
  rental_days : ℚ
  pickup_date : String
  dropoff_date : String
  url : String

/-- The record appended by `POST` of src/app/api/run/route.ts:
`min_per_day = min_total != null && rental_days > 0 ? min_total / rental_days : null`. -/
def runRecordOfScrape (now : String) (data : ScrapeResult) : Run :=
  { run_at := now
    pickup_date := data.pickup_date
    dropoff_date := data.dropoff_date
    rental_days := data.rental_days
    min_total_price := data.min_price
    min_price_per_day :=
      match data.min_price with
      | some t => if 0 < data.rental_days then some (t / data.rental_days) else none
      | none => none
    num_offers := (data.all_prices.length : ℚ)
    url := some data.url }

/-- The decoded JSON body seen by `POST` of src/app/api/ingest/route.ts:
`none` in a field models the field being missing or of the wrong JSON type
(the `typeof` checks fall back to the defaults). -/
structure IngestBody where
  run_at : Option String
  pickup_date : Option String
  dropoff_date : Option String
  rental_days : Option ℚ
  min_total_price : Option ℚ
  min_price_per_day : Option ℚ
  num_offers : Option ℚ
  url : Option String

/-- Model of the ingestion path of src/app/api/ingest/route.ts after JSON
decoding: field defaulting, then the `!pickup_date || !dropoff_date`
validation (an empty string is falsy); `none` models the 400 rejection. -/
def ingestRun (now : String) (b : IngestBody) : Option Run :=
  let pickup_date := b.pickup_date.getD ""
  let dropoff_date := b.dropoff_date.getD ""
  if pickup_date = "" ∨ dropoff_date = "" then none
  else
    some
      { run_at := b.run_at.getD now
        pickup_date := pickup_date
        dropoff_date := dropoff_date
        rental_days := b.rental_days.getD 0
        min_total_price := b.min_total_price
        min_price_per_day := b.min_price_per_day
        num_offers := b.num_offers.getD 0
        url := b.url }

/-! ## Price formatting (the round-trip partner of parsePriceText) -/

/-- Decimal digit character for a value below ten. -/
def decDigit (d : ℕ) : Char := Char.ofNat (48 + d)

/-- Big-endian decimal digit characters of `n` (empty for zero); the fuel
argument bounds the division chain. -/
def natDigsAux : ℕ → ℕ → List Char
  | 0, _ => []
  | fuel + 1, n =>
    if n = 0 then [] else natDigsAux fuel (n / 10) ++ [decDigit (n % 10)]

/-- Decimal rendering of a natural number. -/
def natStr (n : ℕ) : List Char := if n = 0 then ['0'] else natDigsAux n n

/-- Two-digit rendering of a cent amount below 100. -/
def twoDig (c : ℕ) : List Char := [decDigit (c / 10), decDigit (c % 10)]

/-- Thousands grouping over reversed digits: a separator before every fourth,
seventh, ... digit from the right. -/
def groupAux (sep : Char) : List Char → ℕ → List Char
  | [], _ => []
  | c :: rest, k =>
    if k = 3 then sep :: c :: groupAux sep rest 1
    else c :: groupAux sep rest (k + 1)

/-- Insert a thousands separator into a big-endian digit string. -/
def groupThousands (sep : Char) (ds : List Char) : List Char :=
  (groupAux sep ds.reverse 0).reverse

/-- Modelled from the spec: the round-trip property of §8 needs a price
formatter, which is not part of the repository. Decimal-point style with a
currency symbol and comma thousands separators, e.g. `€1,234.56` for
1234 euros 56 cents. -/
def formatDotStyle (e c : ℕ) : List Char :=
  '€' :: (groupThousands ',' (natStr e) ++ '.' :: twoDig c)

/-- Modelled from the spec: European thousands-separator/decimal-comma style
with a currency symbol, e.g. `€1.234,56` for 1234 euros 56 cents. -/
def formatCommaStyle (e c : ℕ) : List Char :=
  '€' :: (groupThousands '.' (natStr e) ++ ',' :: twoDig c)

/-! ## Helper lemmas: character classes -/

theorem isSpaceJS_eq_false_of_price {c : Char} (h : isPriceChar c = true) :
    isSpaceJS c = false := by
  by_contra hs
  have hs' : isSpaceJS c = true := by
    cases hEq : isSpaceJS c with
    | false => exact absurd hEq hs
    | true => rfl
  simp only [isSpaceJS, Bool.or_eq_true, decide_eq_true_eq] at hs'
  rcases hs' with ((((h1 | h1) | h1) | h1) | h1) | h1 <;>
    subst h1 <;> simp [isPriceChar] at h

theorem isPriceChar_of_digitDot {c : Char} (h : isDigitDot c = true) :
    isPriceChar c = true := by
  simp only [isDigitDot, Bool.or_eq_true] at h
  rcases h with h | h <;> simp [isPriceChar, h]

theorem isDigitDot_of_digit {c : Char} (h : c.isDigit = true) :
    isDigitDot c = true := by
  simp [isDigitDot, h]

theorem isDigitDot_of_price_not_comma {c : Char} (h : isPriceChar c = true)
    (hc : c ≠ ',') : isDigitDot c = true := by
  simp only [isPriceChar, Bool.or_eq_true, decide_eq_true_eq] at h
  rcases h with (h | h) | h
  · simp [isDigitDot, h]
  · simp [isDigitDot, h]
  · exact absurd h hc

theorem comma_not_digit : (',').isDigit = false := by decide

theorem dot_not_digit : ('.').isDigit = false := by decide

/-! ## Helper lemmas: takeWhile, dropWhile, filter -/

theorem takeWhile_eq_self_of_all {p : Char → Bool} {l : List Char}
    (h : ∀ c ∈ l, p c = true) : l.takeWhile p = l :=
  List.takeWhile_eq_self_iff.mpr h

theorem takeWhile_append_of_all {p : Char → Bool} {xs : List Char} {y : Char}
    {ys : List Char} (hxs : ∀ c ∈ xs, p c = true) (hy : p y = false) :
    (xs ++ y :: ys).takeWhile p = xs := by
  induction xs with
  | nil => simp [List.takeWhile_cons, hy]
  | cons a l ih =>
    have ha : p a = true := hxs a (List.mem_cons_self a l)
    simp only [List.cons_append, List.takeWhile_cons, ha, if_true]
    have := ih (fun c hc => hxs c (List.mem_cons_of_mem a hc))
    simp [this]

theorem dropWhile_append_of_all {p : Char → Bool} {xs : List Char} {y : Char}
    {ys : List Char} (hxs : ∀ c ∈ xs, p c = true) (hy : p y = false) :
    (xs ++ y :: ys).dropWhile p = y :: ys := by
  induction xs with
  | nil => simp [List.dropWhile_cons, hy]
  | cons a l ih =>
    have ha : p a = true := hxs a (List.mem_cons_self a l)
    simp only [List.cons_append, List.dropWhile_cons, ha, if_true]
    exact ih fun c hc => hxs c (List.mem_cons_of_mem a hc)

theorem dropWhile_head_false {p : Char → Bool} :
    ∀ {l : List Char} {x : Char} {xs : List Char},
      l.dropWhile p = x :: xs → p x = false := by
  intro l
  induction l with
  | nil => intro x xs h; simp at h
  | cons a t ih =>
    intro x xs h
    by_cases ha : p a = true
    · rw [List.dropWhile_cons, if_pos ha] at h
      exact ih h
    · rw [List.dropWhile_cons, if_neg ha] at h
      cases h
      cases hpa : p a with
      | false => rfl
      | true => exact absurd hpa ha

theorem length_takeWhile_add_dropWhile (p : Char → Bool) (l : List Char) :
    (l.takeWhile p).length + (l.dropWhile p).length = l.length := by
  conv_rhs => rw [← List.takeWhile_append_dropWhile p l]
  rw [List.length_append]

/-- Generic fold-invariant preservation. -/
theorem foldl_preserve {α β : Type} (P : β → Prop) (f : β → α → β)
    (hstep : ∀ b a, P b → P (f b a)) :
    ∀ (l : List α) (b : β), P b → P (l.foldl f b) := by
  intro l
  induction l with
  | nil => intro b hb; exact hb
  | cons a t ih => intro b hb; exact ih (f b a) (hstep b a hb)

/-! ## Helper lemmas: replaceFirstComma -/

theorem replaceFirstComma_length (l : List Char) :
    (replaceFirstComma l).length = l.length := by
  induction l with
  | nil => rfl
  | cons c rest ih =>
    by_cases hc : c = ','
    · simp [replaceFirstComma, hc]
    · simp [replaceFirstComma, hc, ih]

theorem replaceFirstComma_of_no_comma {l : List Char}
    (h : ∀ c ∈ l, c ≠ ',') : replaceFirstComma l = l := by
  induction l with
  | nil => rfl
  | cons c rest ih =>
    have hc : c ≠ ',' := h c (List.mem_cons_self c rest)
    simp only [replaceFirstComma, if_neg hc, List.cons.injEq, true_and]
    exact ih fun x hx => h x (List.mem_cons_of_mem c hx)

theorem replaceFirstComma_append_comma {xs : List Char} (ys : List Char)
    (h : ∀ c ∈ xs, c ≠ ',') :
    replaceFirstComma (xs ++ ',' :: ys) = xs ++ '.' :: ys := by
  induction xs with
  | nil => simp [replaceFirstComma]
  | cons c rest ih =>
    have hc : c ≠ ',' := h c (List.mem_cons_self c rest)
    simp only [List.cons_append, replaceFirstComma, if_neg hc,
      List.cons.injEq, true_and]
    exact ih fun x hx => h x (List.mem_cons_of_mem c hx)

theorem replaceFirstComma_all_price {l : List Char}
    (h : ∀ c ∈ l, isPriceChar c = true) :
    ∀ c ∈ replaceFirstComma l, isPriceChar c = true := by
  induction l with
  | nil => intro c hc; simp [replaceFirstComma] at hc
  | cons a rest ih =>
    by_cases ha : a = ','
    · subst ha
      simp only [replaceFirstComma, if_pos rfl]
      intro c hc
      rcases List.mem_cons.mp hc with h1 | h1
      · subst h1; decide
      · exact h c (List.mem_cons_of_mem _ h1)
    · simp only [replaceFirstComma, if_neg ha]
      intro c hc
      rcases List.mem_cons.mp hc with h1 | h1
      · subst h1; exact h c (List.mem_cons_self _ _)
      · exact ih (fun x hx => h x (List.mem_cons_of_mem _ hx)) c h1

/-- The normalization step turns the head of an all-price-character string
into a digit-or-period character, with an all-price-character tail. -/
theorem replaceFirstComma_shape {g : List Char} (hne : g ≠ [])
    (hall : ∀ c ∈ g, isPriceChar c = true) :
    ∃ d rest, replaceFirstComma g = d :: rest ∧ isDigitDot d = true ∧
      ∀ c ∈ rest, isPriceChar c = true := by
  cases g with
  | nil => exact absurd rfl hne
  | cons a rest =>
    by_cases ha : a = ','
    · subst ha
      refine ⟨'.', rest, by simp [replaceFirstComma], by decide, ?_⟩
      exact fun c hc => hall c (List.mem_cons_of_mem _ hc)
    · refine ⟨a, replaceFirstComma rest, by simp [replaceFirstComma, ha], ?_, ?_⟩
      · exact isDigitDot_of_price_not_comma (hall a (List.mem_cons_self _ _)) ha
      · exact replaceFirstComma_all_price
          (fun c hc => hall c (List.mem_cons_of_mem _ hc))

/-! ## Helper lemmas: decimal digits -/

theorem decDigit_toNat {d : ℕ} (h : d < 10) : (decDigit d).toNat = 48 + d := by
  unfold decDigit
  interval_cases d <;> decide

theorem decDigit_isDigit {d : ℕ} (h : d < 10) : (decDigit d).isDigit = true := by
  unfold decDigit
  interval_cases d <;> decide

theorem decDigit_ne_comma {d : ℕ} (h : d < 10) : decDigit d ≠ ',' := by
  unfold decDigit
  interval_cases d <;> decide

theorem digitsToNat_append_one (xs : List Char) (c : Char) :
    digitsToNat (xs ++ [c]) = 10 * digitsToNat xs + (c.toNat - 48) := by
  unfold digitsToNat
  rw [List.foldl_append]
  rfl

theorem digitsToNat_natDigsAux :
    ∀ fuel n, n ≤ fuel → digitsToNat (natDigsAux fuel n) = n := by
  intro fuel
  induction fuel with
  | zero =>
    intro n hn
    interval_cases n
    rfl
  | succ f ih =>
    intro n hn
    by_cases h0 : n = 0
    · subst h0; simp [natDigsAux, digitsToNat]
    · rw [natDigsAux, if_neg h0, digitsToNat_append_one]
      have hdiv : n / 10 ≤ f := by
        have h1 : n / 10 < n := Nat.div_lt_self (Nat.pos_of_ne_zero h0) (by omega)
        omega
      rw [ih (n / 10) hdiv, decDigit_toNat (Nat.mod_lt n (by omega))]
      omega

theorem digitsToNat_natStr (n : ℕ) : digitsToNat (natStr n) = n := by
  by_cases h0 : n = 0
  · subst h0; rfl
  · rw [natStr, if_neg h0]
    exact digitsToNat_natDigsAux n n le_rfl

theorem natDigsAux_all_digit :
    ∀ fuel n, ∀ c ∈ natDigsAux fuel n, c.isDigit = true := by
  intro fuel
  induction fuel with
  | zero => intro n c hc; simp [natDigsAux] at hc
  | succ f ih =>
    intro n c hc
    by_cases h0 : n = 0
    · subst h0; simp [natDigsAux] at hc
    · rw [natDigsAux, if_neg h0] at hc
      rcases List.mem_append.mp hc with h1 | h1
      · exact ih (n / 10) c h1
      · rcases List.mem_singleton.mp h1 with rfl
        exact decDigit_isDigit (Nat.mod_lt n (by omega))

theorem natStr_all_digit (n : ℕ) : ∀ c ∈ natStr n, c.isDigit = true := by
  by_cases h0 : n = 0
  · subst h0; intro c hc; rcases List.mem_singleton.mp hc with rfl; decide
  · rw [natStr, if_neg h0]; exact natDigsAux_all_digit n n

theorem natStr_ne_nil (n : ℕ) : natStr n ≠ [] := by
  by_cases h0 : n = 0
  · subst h0; simp [natStr]
  · rw [natStr, if_neg h0]
    cases h0' : n with
    | zero => exact absurd h0' h0
    | succ m =>
      subst h0'
      rw [natDigsAux, if_neg h0]
      simp

theorem twoDig_all_digit {c : ℕ} (h : c < 100) :
    ∀ x ∈ twoDig c, x.isDigit = true := by
  intro x hx
  rcases List.mem_cons.mp hx with h1 | h1
  · subst h1; exact decDigit_isDigit (by omega)
  · rcases List.mem_singleton.mp h1 with rfl
    exact decDigit_isDigit (Nat.mod_lt c (by omega))

theorem digitsToNat_twoDig {c : ℕ} (h : c < 100) : digitsToNat (twoDig c) = c := by
  show digitsToNat ([decDigit (c / 10)] ++ [decDigit (c % 10)]) = c
  rw [digitsToNat_append_one, decDigit_toNat (Nat.mod_lt c (by omega))]
  have : digitsToNat [decDigit (c / 10)] = c / 10 := by
    show digitsToNat ([] ++ [decDigit (c / 10)]) = c / 10
    rw [digitsToNat_append_one, decDigit_toNat (by omega)]
    show 10 * 0 + (48 + c / 10 - 48) = c / 10
    omega
  rw [this]
  omega

/-! ## Helper lemmas: parseFloatDP and firstRun -/

theorem parseFloatDP_of_dropWhile_nil {cs : List Char}
    (h : cs.dropWhile Char.isDigit = []) :
    parseFloatDP cs =
      if (cs.takeWhile Char.isDigit).length = 0 then none
      else some ((digitsToNat (cs.takeWhile Char.isDigit) : ℚ)) := by
  unfold parseFloatDP
  rw [h]

theorem parseFloatDP_of_dropWhile_comma {cs : List Char} {r2 : List Char}
    (h : cs.dropWhile Char.isDigit = ',' :: r2) :
    parseFloatDP cs =
      if (cs.takeWhile Char.isDigit).length = 0 then none
      else some ((digitsToNat (cs.takeWhile Char.isDigit) : ℚ)) := by
  unfold parseFloatDP
  rw [h]
  simp

theorem parseFloatDP_of_dropWhile_dot {cs : List Char} {r2 : List Char}
    (h : cs.dropWhile Char.isDigit = '.' :: r2) :
    parseFloatDP cs =
      if (cs.takeWhile Char.isDigit).length = 0 ∧
          (r2.takeWhile Char.isDigit).length = 0 then none
      else some ((digitsToNat (cs.takeWhile Char.isDigit) : ℚ) +
        (digitsToNat (r2.takeWhile Char.isDigit) : ℚ) /
          (10 : ℚ) ^ (r2.takeWhile Char.isDigit).length) := by
  unfold parseFloatDP
  rw [h]
  simp

/-- Evaluation of the parseFloat model on an explicit digits-dot-digits
token. -/
theorem parseFloatDP_digit_frac {ds fs : List Char}
    (hds : ∀ c ∈ ds, c.isDigit = true) (hfs : ∀ c ∈ fs, c.isDigit = true) :
    parseFloatDP (ds ++ '.' :: fs) =
      if ds.length = 0 ∧ fs.length = 0 then none
      else some ((digitsToNat ds : ℚ) +
        (digitsToNat fs : ℚ) / (10 : ℚ) ^ fs.length) := by
  have h1 : (ds ++ '.' :: fs).dropWhile Char.isDigit = '.' :: fs :=
    dropWhile_append_of_all hds dot_not_digit
  rw [parseFloatDP_of_dropWhile_dot h1,
    takeWhile_append_of_all hds dot_not_digit, takeWhile_eq_self_of_all hfs]

/-- A character of the price alphabet that is not a digit or period is the
comma. -/
theorem eq_comma_of_price_not_digitDot {c : Char} (hp : isPriceChar c = true)
    (hd : isDigitDot c = false) : c = ',' := by
  simp only [isPriceChar, Bool.or_eq_true, decide_eq_true_eq] at hp
  rcases hp with (h | h) | h
  · rw [isDigitDot, h] at hd; simp at hd
  · subst h; simp [isDigitDot] at hd
  · exact h

theorem takeWhile_prefix_eq_of_length {p : Char → Bool} {l : List Char}
    (h : (l.takeWhile p).length = l.length) : l.takeWhile p = l :=
  (List.takeWhile_prefix p).eq_of_length h

/-- Appending a comma-headed suffix does not change the digit run that
`parseFloat` reads for the fractional part. -/
theorem takeWhile_digit_append_comma (r d' : List Char) :
    (r ++ ',' :: d').takeWhile Char.isDigit = r.takeWhile Char.isDigit := by
  rw [List.takeWhile_append]
  by_cases hlen : (r.takeWhile Char.isDigit).length = r.length
  · rw [if_pos hlen, takeWhile_prefix_eq_of_length hlen,
      List.takeWhile_cons, comma_not_digit]
    simp
  · rw [if_neg hlen]

/-- Key refinement lemma: on a string over the price alphabet, `parseFloat`
reads the same value as `parseFloat` applied to the leading `[\d.]` run
(nothing past the first comma can influence the parse). -/
theorem parseFloatDP_takeWhile {ns : List Char}
    (hall : ∀ c ∈ ns, isPriceChar c = true) :
    parseFloatDP (ns.takeWhile isDigitDot) = parseFloatDP ns := by
  set t := ns.takeWhile isDigitDot with ht
  have hsplit : t ++ ns.dropWhile isDigitDot = ns :=
    List.takeWhile_append_dropWhile isDigitDot ns
  have htmem : ∀ c ∈ t, isDigitDot c = true := fun c hc =>
    List.mem_takeWhile_imp hc
  cases hd : ns.dropWhile isDigitDot with
  | nil =>
    rw [hd, List.append_nil] at hsplit
    rw [hsplit]
  | cons e d' =>
    have he : isDigitDot e = false := dropWhile_head_false hd
    have heMem : e ∈ ns := by
      have : e ∈ ns.dropWhile isDigitDot := by rw [hd]; exact List.mem_cons_self _ _
      exact (List.dropWhile_sublist isDigitDot).mem this
    have heComma : e = ',' := eq_comma_of_price_not_digitDot (hall e heMem) he
    subst heComma
    rw [hd] at hsplit
    cases hdt : t.dropWhile Char.isDigit with
    | nil =>
      have htd : t.takeWhile Char.isDigit = t := by
        have := List.takeWhile_append_dropWhile Char.isDigit t
        rw [hdt, List.append_nil] at this
        exact this
      have htall : ∀ c ∈ t, c.isDigit = true := by
        rw [← htd]
        exact fun c hc => List.mem_takeWhile_imp hc
      have hns1 : ns.takeWhile Char.isDigit = t := by
        rw [← hsplit]
        exact takeWhile_append_of_all htall comma_not_digit
      have hns2 : ns.dropWhile Char.isDigit = ',' :: d' := by
        rw [← hsplit]
        exact dropWhile_append_of_all htall comma_not_digit
      rw [parseFloatDP_of_dropWhile_nil hdt,
        parseFloatDP_of_dropWhile_comma hns2, htd, hns1]
    | cons e1 r =>
      have he1 : e1.isDigit = false := dropWhile_head_false hdt
      have he1t : e1 ∈ t := by
        have : e1 ∈ t.dropWhile Char.isDigit := by
          rw [hdt]; exact List.mem_cons_self _ _
        exact (List.dropWhile_sublist Char.isDigit).mem this
      have he1dot : e1 = '.' := by
        have hdd : isDigitDot e1 = true := htmem e1 he1t
        simp only [isDigitDot, Bool.or_eq_true, decide_eq_true_eq, he1] at hdd
        rcases hdd with h | h
        · simp at h
        · exact h
      subst he1dot
      have htsplit : t.takeWhile Char.isDigit ++ '.' :: r = t := by
        have := List.takeWhile_append_dropWhile Char.isDigit t
        rw [hdt] at this
        exact this
      have hdall : ∀ c ∈ t.takeWhile Char.isDigit, c.isDigit = true :=
        fun c hc => List.mem_takeWhile_imp hc
      have hns0 : t.takeWhile Char.isDigit ++ '.' :: (r ++ ',' :: d') = ns := by
        conv_rhs => rw [← hsplit, ← htsplit]
        simp
      have hns1 : ns.takeWhile Char.isDigit = t.takeWhile Char.isDigit := by
        rw [← hns0]
        exact takeWhile_append_of_all hdall dot_not_digit
      have hns2 : ns.dropWhile Char.isDigit = '.' :: (r ++ ',' :: d') := by
        rw [← hns0]
        exact dropWhile_append_of_all hdall dot_not_digit
      rw [parseFloatDP_of_dropWhile_dot hdt, parseFloatDP_of_dropWhile_dot hns2,
        hns1, takeWhile_digit_append_comma]

theorem firstRun_cons_pos {c : Char} {rest : List Char}
    (h : isDigitDot c = true) :
    firstRun (c :: rest) = some (c :: rest.takeWhile isDigitDot) := by
  simp [firstRun, h]

theorem firstRun_eq_takeWhile {c : Char} {rest : List Char}
    (h : isDigitDot c = true) :
    firstRun (c :: rest) = some ((c :: rest).takeWhile isDigitDot) := by
  rw [firstRun_cons_pos h, List.takeWhile_cons, h]
  simp

/-! ## Helper lemmas: fallback versus parsePriceText, scanner tokens -/

/-- The core refinement fact behind the fallback: on any nonempty token over
the price alphabet, the inline fallback rule and `parsePriceText` agree. -/
theorem fallbackParse_eq_parsePriceText {g : List Char} (hne : g ≠ [])
    (hall : ∀ c ∈ g, isPriceChar c = true) :
    fallbackParse g = parsePriceText g := by
  have hfil : g.filter isPriceChar = g := List.filter_eq_self.mpr hall
  have hnsall : ∀ c ∈ replaceFirstComma g, isPriceChar c = true :=
    replaceFirstComma_all_price hall
  obtain ⟨d, rest, hns, hd, -⟩ := replaceFirstComma_shape hne hall
  have hws : g.all isSpaceJS = false := by
    cases g with
    | nil => exact absurd rfl hne
    | cons a t =>
      have ha : isSpaceJS a = false :=
        isSpaceJS_eq_false_of_price (hall a (List.mem_cons_self a t))
      simp [List.all_cons, ha]
  have hfr : firstRun (normalizedOf g) =
      some ((replaceFirstComma g).takeWhile isDigitDot) := by
    rw [normalizedOf, hfil, hns]
    exact firstRun_eq_takeWhile hd
  have hpf : parseFloatDP ((replaceFirstComma g).takeWhile isDigitDot) =
      parseFloatDP (replaceFirstComma g) := parseFloatDP_takeWhile hnsall
  unfold parsePriceText fallbackParse
  rw [hws, hfr]
  simp only [Bool.false_eq_true, if_false, hpf]

theorem tryMatchEuro_shape {cs g : List Char} {n : ℕ}
    (h : tryMatchEuro cs = some (g, n)) :
    g ≠ [] ∧ ∀ c ∈ g, isPriceChar c = true := by
  cases cs with
  | nil => simp [tryMatchEuro] at h
  | cons c rest =>
    simp only [tryMatchEuro] at h
    by_cases hc : c = '€'
    · rw [if_pos hc] at h
      by_cases hz : ((rest.dropWhile isSpaceJS).takeWhile isPriceChar).length = 0
      · rw [if_pos hz] at h; exact absurd h (by simp)
      · rw [if_neg hz] at h
        simp only [Option.some.injEq, Prod.mk.injEq] at h
        obtain ⟨hg, -⟩ := h
        subst hg
        refine ⟨?_, fun x hx => List.mem_takeWhile_imp hx⟩
        intro hnil
        rw [hnil] at hz
        exact hz rfl
    · rw [if_neg hc] at h
      by_cases hp : isPriceChar c = true
      · rw [if_pos hp] at h
        cases hdw : ((c :: rest).dropWhile isPriceChar).dropWhile isSpaceJS with
        | nil => rw [hdw] at h; exact absurd h (by simp)
        | cons e tl =>
          rw [hdw] at h
          dsimp only at h
          by_cases he : e = '€'
          · rw [if_pos he] at h
            simp only [Option.some.injEq, Prod.mk.injEq] at h
            obtain ⟨hg, -⟩ := h
            subst hg
            refine ⟨?_, fun x hx => List.mem_takeWhile_imp hx⟩
            rw [List.takeWhile_cons, hp]
            simp
          · rw [if_neg he] at h; exact absurd h (by simp)
      · rw [if_neg hp] at h; exact absurd h (by simp)

theorem scanEuroAux_tokens :
    ∀ fuel cs, ∀ g ∈ scanEuroAux fuel cs,
      g ≠ [] ∧ ∀ c ∈ g, isPriceChar c = true := by
  intro fuel
  induction fuel with
  | zero => intro cs g hg; simp [scanEuroAux] at hg
  | succ f ih =>
    intro cs g hg
    cases cs with
    | nil => simp [scanEuroAux] at hg
    | cons c rest =>
      rw [scanEuroAux] at hg
      cases htm : tryMatchEuro (c :: rest) with
      | none =>
        rw [htm] at hg
        exact ih rest g hg
      | some pr =>
        obtain ⟨t, n⟩ := pr
        rw [htm] at hg
        rcases List.mem_cons.mp hg with h1 | h1
        · subst h1; exact tryMatchEuro_shape htm
        · exact ih _ g h1

/-- Every captured group of the fallback regex is a nonempty string over the
price alphabet `[\d.,]`. -/
theorem scanEuro_tokens (cs : List Char) :
    ∀ g ∈ scanEuro cs, g ≠ [] ∧ ∀ c ∈ g, isPriceChar c = true :=
  scanEuroAux_tokens cs.length cs

/-! ## Helper lemmas: extractor output shape -/

theorem addPrice_nodup {acc : List ℚ} {p : ℚ} (h : acc.Nodup) :
    (addPrice acc p).Nodup := by
  unfold addPrice
  by_cases hp : p ∈ acc
  · rw [if_pos hp]; exact h
  · rw [if_neg hp]
    simp only [List.nodup_append, List.nodup_cons, List.not_mem_nil,
      not_false_iff, List.nodup_nil, and_true, true_and, h]
    intro a ha hmem
    rcases List.mem_singleton.mp hmem with rfl
    exact hp ha

theorem collectStructural_nodup (page : Page) : (collectStructural page).Nodup := by
  unfold collectStructural
  apply foldl_preserve (fun l : List ℚ => l.Nodup)
  · intro acc sel hacc
    cases page.probeTexts sel with
    | none => exact hacc
    | some texts =>
      apply foldl_preserve (fun l : List ℚ => l.Nodup)
      · intro b t hb
        cases parsePriceText t with
        | none => exact hb
        | some p => exact addPrice_nodup hb
      · exact hacc
  · exact List.nodup_nil

theorem collectFallback_nodup {acc : List ℚ} (body : List Char)
    (h : acc.Nodup) : (collectFallback acc body).Nodup := by
  unfold collectFallback
  apply foldl_preserve (fun l : List ℚ => l.Nodup)
  · intro b g hb
    cases fallbackParse g with
    | none => exact hb
    | some v => exact addPrice_nodup hb
  · exact h

theorem sortQ_perm (l : List ℚ) : (sortQ l).Perm l :=
  List.perm_insertionSort (· ≤ ·) l

theorem sortQ_sorted (l : List ℚ) : List.Sorted (· ≤ ·) (sortQ l) :=
  List.sorted_insertionSort (· ≤ ·) l

theorem extractPricesFromPage_eq (page : Page) :
    extractPricesFromPage page =
      sortQ (if (collectStructural page).length = 0
        then collectFallback (collectStructural page) page.bodyText
        else collectStructural page) := rfl

theorem extractPrices_nodup (page : Page) :
    (extractPricesFromPage page).Nodup := by
  rw [extractPricesFromPage_eq]
  by_cases h0 : (collectStructural page).length = 0
  · rw [if_pos h0]
    exact ((sortQ_perm _).symm).nodup
      (collectFallback_nodup _ (collectStructural_nodup page))
  · rw [if_neg h0]
    exact ((sortQ_perm _).symm).nodup (collectStructural_nodup page)

theorem extractPrices_sorted (page : Page) :
    List.Sorted (· ≤ ·) (extractPricesFromPage page) := by
  rw [extractPricesFromPage_eq]
  by_cases h0 : (collectStructural page).length = 0
  · rw [if_pos h0]; exact sortQ_sorted _
  · rw [if_neg h0]; exact sortQ_sorted _

theorem extractPrices_strict_sorted (page : Page) :
    List.Pairwise (· < ·) (extractPricesFromPage page) := by
  have h1 := extractPrices_sorted page
  have h2 := extractPrices_nodup page
  exact ((h1.and h2).imp fun h => lt_of_le_of_ne h.1 h.2)

theorem foldl_min_of_le {p : ℚ} :
    ∀ {rest : List ℚ}, (∀ x ∈ rest, p ≤ x) → rest.foldl min p = p := by
  intro rest
  induction rest with
  | nil => intro _; rfl
  | cons r rs ih =>
    intro h
    have hpr : min p r = p := min_eq_left (h r (List.mem_cons_self r rs))
    rw [List.foldl_cons, hpr]
    exact ih fun x hx => h x (List.mem_cons_of_mem r hx)

theorem minPrice_eq_head_of_sorted {s : List ℚ}
    (hs : List.Sorted (· ≤ ·) s) : minPrice s = s.head? := by
  cases s with
  | nil => rfl
  | cons p rest =>
    show some (rest.foldl min p) = some p
    rw [foldl_min_of_le (List.rel_of_sorted_cons hs)]

/-! ## Helper lemmas: percentile -/

theorem sortQ_length (l : List ℚ) : (sortQ l).length = l.length :=
  (sortQ_perm l).length_eq

theorem percentile_of_guard {xs : List ℚ} {p : ℚ}
    (h : xs.length = 0 ∨ p < 0 ∨ 1 < p) : percentile xs p = none := by
  unfold percentile
  rw [if_pos h]

theorem percentile_guard_false {xs : List ℚ} {p : ℚ} (hne : xs ≠ [])
    (h0 : 0 ≤ p) (h1 : p ≤ 1) : ¬(xs.length = 0 ∨ p < 0 ∨ 1 < p) := by
  push_neg
  exact ⟨fun h => hne (List.length_eq_zero.mp h), h0, h1⟩

theorem percentile_index_bounds {xs : List ℚ} {p : ℚ} (hne : xs ≠ [])
    (h0 : 0 ≤ p) (h1 : p ≤ 1) :
    (⌊(((sortQ xs).length : ℚ) - 1) * p⌋).toNat < (sortQ xs).length ∧
      (⌈(((sortQ xs).length : ℚ) - 1) * p⌉).toNat < (sortQ xs).length := by
  set n := (sortQ xs).length with hn
  have hn1 : 1 ≤ n := by
    rw [hn, sortQ_length]
    exact List.length_pos.mpr hne
  set k : ℚ := ((n : ℚ) - 1) * p with hk
  have hk0 : 0 ≤ k := by
    apply mul_nonneg _ h0
    have : (1 : ℚ) ≤ (n : ℚ) := by exact_mod_cast hn1
    linarith
  have hkn : k ≤ (n : ℚ) - 1 := by
    have h2 : (0 : ℚ) ≤ (n : ℚ) - 1 := by
      have h3 : (1 : ℚ) ≤ (n : ℚ) := by exact_mod_cast hn1
      linarith
    have h4 := mul_le_of_le_one_right h2 h1
    rw [hk]
    linarith
  have hcast : ((n : ℚ) - 1) = (((n : ℤ) - 1 : ℤ) : ℚ) := by push_cast; ring
  have hfle : ⌊k⌋ ≤ (n : ℤ) - 1 := by
    have := Int.floor_mono hkn
    rwa [hcast, Int.floor_intCast] at this
  have hcle : ⌈k⌉ ≤ (n : ℤ) - 1 := by
    rw [Int.ceil_le, ← hcast]
    exact hkn
  constructor
  · rw [Int.toNat_lt (Int.floor_nonneg.mpr hk0)]
    omega
  · rw [Int.toNat_lt (Int.ceil_nonneg hk0)]
    omega

theorem percentile_floor_case {xs : List ℚ} {p : ℚ} (hne : xs ≠ [])
    (h0 : 0 ≤ p) (h1 : p ≤ 1)
    (hfc : ⌊(((sortQ xs).length : ℚ) - 1) * p⌋ = ⌈(((sortQ xs).length : ℚ) - 1) * p⌉) :
    percentile xs p =
      some ((sortQ xs).getD (⌊(((sortQ xs).length : ℚ) - 1) * p⌋).toNat 0) := by
  have hidx := (percentile_index_bounds hne h0 h1).1
  unfold percentile
  rw [if_neg (percentile_guard_false hne h0 h1)]
  dsimp only
  rw [if_pos hfc, List.getElem?_eq_getElem hidx, List.getD_eq_getElem _ _ hidx]

theorem percentile_interp_case {xs : List ℚ} {p : ℚ} (hne : xs ≠ [])
    (h0 : 0 ≤ p) (h1 : p ≤ 1)
    (hfc : ⌊(((sortQ xs).length : ℚ) - 1) * p⌋ ≠ ⌈(((sortQ xs).length : ℚ) - 1) * p⌉) :
    percentile xs p =
      some ((sortQ xs).getD (⌊(((sortQ xs).length : ℚ) - 1) * p⌋).toNat 0 *
          ((⌈(((sortQ xs).length : ℚ) - 1) * p⌉ : ℚ) - (((sortQ xs).length : ℚ) - 1) * p) +
        (sortQ xs).getD (⌈(((sortQ xs).length : ℚ) - 1) * p⌉).toNat 0 *
          ((((sortQ xs).length : ℚ) - 1) * p - (⌊(((sortQ xs).length : ℚ) - 1) * p⌋ : ℚ))) := by
  unfold percentile
  rw [if_neg (percentile_guard_false hne h0 h1)]
  dsimp only
  rw [if_neg hfc]

theorem percentile_isSome {xs : List ℚ} {p : ℚ} (hne : xs ≠ [])
    (h0 : 0 ≤ p) (h1 : p ≤ 1) : ∃ v, percentile xs p = some v := by
  by_cases hfc :
    ⌊(((sortQ xs).length : ℚ) - 1) * p⌋ = ⌈(((sortQ xs).length : ℚ) - 1) * p⌉
  · exact ⟨_, percentile_floor_case hne h0 h1 hfc⟩
  · exact ⟨_, percentile_interp_case hne h0 h1 hfc⟩

theorem percentile_none_iff (xs : List ℚ) (p : ℚ) :
    percentile xs p = none ↔ (xs = [] ∨ p < 0 ∨ 1 < p) := by
  constructor
  · intro h
    by_contra hcon
    push_neg at hcon
    obtain ⟨hne, h0, h1⟩ := hcon
    obtain ⟨v, hv⟩ := percentile_isSome hne h0 h1
    rw [hv] at h
    exact Option.noConfusion h
  · intro h
    apply percentile_of_guard
    rcases h with h | h
    · exact Or.inl (by rw [h]; rfl)
    · exact Or.inr h

/-! ## Concrete evaluation helpers -/

theorem sortQ_example1 : sortQ [10, 20, 30, 40] = [(10 : ℚ), 20, 30, 40] := by
  norm_num [sortQ, List.insertionSort, List.orderedInsert]

theorem percentile_example1 : percentile [10, 20, 30, 40] (1 / 4) = some (35 / 2) := by
  have hne : ([(10 : ℚ), 20, 30, 40]) ≠ [] := by simp
  have hlen : (((sortQ [10, 20, 30, 40]).length : ℚ)) = 4 := by
    rw [sortQ_example1]; norm_num
  have hk : (((sortQ [10, 20, 30, 40]).length : ℚ) - 1) * (1 / 4) = 3 / 4 := by
    rw [hlen]; norm_num
  have hf : ⌊(((sortQ [10, 20, 30, 40]).length : ℚ) - 1) * (1 / 4)⌋ = 0 := by
    rw [hk]; norm_num
  have hc : ⌈(((sortQ [10, 20, 30, 40]).length : ℚ) - 1) * (1 / 4)⌉ = 1 := by
    rw [hk, Int.ceil_eq_iff]; norm_num
  have h := @percentile_interp_case [10, 20, 30, 40] (1 / 4)
    hne (by norm_num) (by norm_num) (by rw [hf, hc]; decide)
  rw [h, hf, hc, hk, sortQ_example1]
  norm_num [List.getD]

/-! ## Claim theorems -/

/-- C2: for every list `xs` and number `p`, `percentile xs p` is absent
exactly when `xs` is empty or `p` lies outside `[0, 1]`; otherwise, with `s`
the ascending sort of `xs`, `n` its length, `k = (n-1)·p`, `f = ⌊k⌋`,
`c = ⌈k⌉`, it returns `s[f]` when `f = c` and
`s[f]·(c-k) + s[c]·(k-f)` otherwise; in particular
`percentile [10,20,30,40] 0.25 = 17.5`. -/
theorem C2_percentile_spec :
    (∀ (xs : List ℚ) (p : ℚ),
      percentile xs p = none ↔ (xs = [] ∨ p < 0 ∨ 1 < p)) ∧
    (∀ (xs : List ℚ) (p : ℚ), xs ≠ [] → 0 ≤ p → p ≤ 1 →
      (⌊(((sortQ xs).length : ℚ) - 1) * p⌋ = ⌈(((sortQ xs).length : ℚ) - 1) * p⌉ →
        percentile xs p =
          some ((sortQ xs).getD (⌊(((sortQ xs).length : ℚ) - 1) * p⌋).toNat 0)) ∧
      (⌊(((sortQ xs).length : ℚ) - 1) * p⌋ ≠ ⌈(((sortQ xs).length : ℚ) - 1) * p⌉ →
        percentile xs p =
          some ((sortQ xs).getD (⌊(((sortQ xs).length : ℚ) - 1) * p⌋).toNat 0 *
              ((⌈(((sortQ xs).length : ℚ) - 1) * p⌉ : ℚ) - (((sortQ xs).length : ℚ) - 1) * p) +
            (sortQ xs).getD (⌈(((sortQ xs).length : ℚ) - 1) * p⌉).toNat 0 *
              ((((sortQ xs).length : ℚ) - 1) * p - (⌊(((sortQ xs).length : ℚ) - 1) * p⌋ : ℚ))))) ∧
    percentile [10, 20, 30, 40] (1 / 4) = some (35 / 2) := by
  refine ⟨percentile_none_iff, ?_, percentile_example1⟩
  intro xs p hne h0 h1
  exact ⟨percentile_floor_case hne h0 h1, percentile_interp_case hne h0 h1⟩

/-- Witness for C2: the hypotheses of the interpolation branch are
satisfiable at `xs = [10,20,30,40]`, `p = 1/4`, where the branch applies. -/
theorem C2_witness :
    percentile [10, 20, 30, 40] (1 / 4) =
      some ((sortQ [10, 20, 30, 40]).getD
          (⌊(((sortQ [10, 20, 30, 40]).length : ℚ) - 1) * (1 / 4)⌋).toNat 0 *
          ((⌈(((sortQ [10, 20, 30, 40]).length : ℚ) - 1) * (1 / 4)⌉ : ℚ) -
            (((sortQ [10, 20, 30, 40]).length : ℚ) - 1) * (1 / 4)) +
        (sortQ [10, 20, 30, 40]).getD
          (⌈(((sortQ [10, 20, 30, 40]).length : ℚ) - 1) * (1 / 4)⌉).toNat 0 *
          ((((sortQ [10, 20, 30, 40]).length : ℚ) - 1) * (1 / 4) -
            (⌊(((sortQ [10, 20, 30, 40]).length : ℚ) - 1) * (1 / 4)⌋ : ℚ))) := by
  have hk : (((sortQ [10, 20, 30, 40]).length : ℚ) - 1) * (1 / 4) = 3 / 4 := by
    rw [sortQ_example1]; norm_num
  apply (C2_percentile_spec.2.1 [10, 20, 30, 40] (1 / 4)
    (by simp) (by norm_num) (by norm_num)).2
  rw [hk]
  have hf : ⌊(3 / 4 : ℚ)⌋ = 0 := by norm_num
  have hc : ⌈(3 / 4 : ℚ)⌉ = 1 := by rw [Int.ceil_eq_iff]; norm_num
  rw [hf, hc]
  decide

/-- The spec describes the series fed to the statistics as the records
filtered to the non-absent strictly-positive per-day values; this is that
description, written with the standard list operations. -/
theorem usablePrices_eq_filter_reduceOption (runs : List Run) :
    usablePrices runs =
      ((runs.map (fun r => r.min_price_per_day)).reduceOption).filter
        (fun v => decide (0 < v)) := by
  unfold usablePrices
  generalize runs.map (fun r => r.min_price_per_day) = l
  induction l with
  | nil => rfl
  | cons o rest ih =>
    cases o with
    | none => simpa [List.filterMap_cons, List.reduceOption_cons_of_none] using ih
    | some v =>
      by_cases hv : 0 < v
      · simp only [List.filterMap_cons, List.reduceOption_cons_of_some,
          List.filter_cons, if_pos hv, decide_eq_true_eq, hv, ite_true, ih]
      · simp only [List.filterMap_cons, List.reduceOption_cons_of_some,
          List.filter_cons, if_neg hv, decide_eq_true_eq, hv, ite_false, ih]

theorem isCheap_short {cur cp : ℚ} {runs : List Run}
    (h : (usablePrices runs).length < 3) :
    isCheap cur runs cp = { cheap := true, threshold := none } := by
  unfold isCheap
  rw [if_pos h]

theorem isCheap_none_branch {cur cp : ℚ} {runs : List Run}
    (h : ¬(usablePrices runs).length < 3)
    (hp : percentile (usablePrices runs) cp = none) :
    isCheap cur runs cp = { cheap := false, threshold := none } := by
  unfold isCheap
  rw [if_neg h, hp]

theorem isCheap_some_branch {cur cp th : ℚ} {runs : List Run}
    (h : ¬(usablePrices runs).length < 3)
    (hp : percentile (usablePrices runs) cp = some th) :
    isCheap cur runs cp = { cheap := decide (cur ≤ th), threshold := some th } := by
  unfold isCheap
  rw [if_neg h, hp]

/-- C1: `isCheap` first filters the records to the usable per-day prices; a
series shorter than 3 yields cheap with no threshold regardless of the
price; an absent percentile yields not-cheap with no threshold; otherwise
the threshold is the percentile and cheapness is the comparison. -/
theorem C1_isCheap_spec (cur : ℚ) (runs : List Run) (cp : ℚ) :
    usablePrices runs =
      ((runs.map (fun r => r.min_price_per_day)).reduceOption).filter
        (fun v => decide (0 < v)) ∧
    ((usablePrices runs).length < 3 →
      isCheap cur runs cp = { cheap := true, threshold := none }) ∧
    (3 ≤ (usablePrices runs).length →
      percentile (usablePrices runs) cp = none →
      isCheap cur runs cp = { cheap := false, threshold := none }) ∧
    (∀ th, 3 ≤ (usablePrices runs).length →
      percentile (usablePrices runs) cp = some th →
      isCheap cur runs cp = { cheap := decide (cur ≤ th), threshold := some th }) := by
  refine ⟨usablePrices_eq_filter_reduceOption runs, isCheap_short, ?_, ?_⟩
  · intro hge hp
    exact isCheap_none_branch (by omega) hp
  · intro th hge hp
    exact isCheap_some_branch (by omega) hp

/-- A minimal record fixture: everything fixed except the per-day price. -/
def mkRun (pd : Option ℚ) : Run :=
  { run_at := "2026-02-01T00:00:00Z"
    pickup_date := "2026-02-25"
    dropoff_date := "2026-03-12"
    rental_days := 15
    min_total_price := none
    min_price_per_day := pd
    num_offers := 1
    url := none }

theorem usablePrices_mkRun (l : List (Option ℚ)) :
    usablePrices (l.map mkRun) =
      l.filterMap (fun p =>
        match p with
        | some v => if 0 < v then some v else none
        | none => none) := by
  unfold usablePrices
  rw [List.map_map]
  have hcomp : ((fun r => r.min_price_per_day) ∘ mkRun) = fun p : Option ℚ => p := by
    funext p
    rfl
  rw [hcomp]
  simp

/-- Witness for C1: with only two usable historical prices the result is
cheap with an absent threshold, independently of the current price. -/
theorem C1_witness :
    isCheap 999 ([some 10, some 20].map mkRun) (1 / 4) =
      { cheap := true, threshold := none } := by
  apply (C1_isCheap_spec 999 ([some 10, some 20].map mkRun) (1 / 4)).2.1
  rw [usablePrices_mkRun]
  norm_num [List.filterMap_cons]

/-- C10: whenever the filtered series has at least 3 usable prices and the
percentile argument lies in `[0, 1]`, the absent-threshold branch of
`isCheap` is unreachable: a numeric threshold is always produced and the
flag is the comparison against it. -/
theorem C10_isCheap_threshold_total (cur : ℚ) (runs : List Run) (cp : ℚ)
    (hlen : 3 ≤ (usablePrices runs).length) (h0 : 0 ≤ cp) (h1 : cp ≤ 1) :
    ∃ th, percentile (usablePrices runs) cp = some th ∧
      isCheap cur runs cp = { cheap := decide (cur ≤ th), threshold := some th } := by
  have hne : usablePrices runs ≠ [] := by
    intro h
    rw [h] at hlen
    simp at hlen
  obtain ⟨th, hth⟩ := percentile_isSome hne h0 h1
  exact ⟨th, hth, isCheap_some_branch (by omega) hth⟩

/-- Witness for C10: three usable prices and a percentile of 1/4. -/
theorem C10_witness :
    ∃ th, percentile (usablePrices ([some 10, some 20, some 30].map mkRun)) (1 / 4) =
        some th ∧
      isCheap 15 ([some 10, some 20, some 30].map mkRun) (1 / 4) =
        { cheap := decide ((15 : ℚ) ≤ th), threshold := some th } := by
  apply C10_isCheap_threshold_total 15 ([some 10, some 20, some 30].map mkRun) (1 / 4)
  · rw [usablePrices_mkRun]
    norm_num [List.filterMap_cons]
  · norm_num
  · norm_num

/-- C5: appending to the history never leaves more than 500 records; below
the bound nothing is evicted; appending to a full 500-record history evicts
exactly the oldest record and keeps the most recent 500 in their original
relative order. Both conjuncts hold for every record value, so eviction
depends only on arrival order, never on record content. -/
theorem appendRun_eq (runs : List Run) (run : Run) :
    appendRun runs run = (runs ++ [run]).drop ((runs ++ [run]).length - 500) := rfl

theorem C5_appendRun_bounded (runs : List Run) (run : Run) :
    (appendRun runs run).length ≤ 500 ∧
    (runs.length < 500 → appendRun runs run = runs ++ [run]) ∧
    (runs.length = 500 → appendRun runs run = runs.drop 1 ++ [run]) := by
  refine ⟨?_, ?_, ?_⟩
  · rw [appendRun_eq, List.length_drop, List.length_append]
    simp
    omega
  · intro h
    rw [appendRun_eq]
    have h1 : (runs ++ [run]).length - 500 = 0 := by
      rw [List.length_append]
      simp
      omega
    rw [h1, List.drop_zero]
  · intro h
    rw [appendRun_eq]
    have h1 : (runs ++ [run]).length - 500 = 1 := by
      rw [List.length_append]
      simp
      omega
    rw [h1, List.drop_append_of_le_length (by omega)]

/-- Witness for C5: a full history of 500 records plus one more. -/
theorem C5_witness :
    (appendRun (List.replicate 500 (mkRun none)) (mkRun (some 5))).length ≤ 500 ∧
    appendRun (List.replicate 500 (mkRun none)) (mkRun (some 5)) =
      (List.replicate 500 (mkRun none)).drop 1 ++ [mkRun (some 5)] := by
  have h := C5_appendRun_bounded (List.replicate 500 (mkRun none)) (mkRun (some 5))
  exact ⟨h.1, h.2.2 (by rw [List.length_replicate])⟩

/-- C4 (amended to the scrape path): every record built by the scrape route
satisfies the invariant: the per-day price is present exactly when the total
price is present and the rental duration is positive, and then equals their
quotient. The ingestion route does not enforce this invariant. -/
theorem C4_scrape_invariant (now : String) (data : ScrapeResult) :
    ((runRecordOfScrape now data).min_price_per_day.isSome ↔
      (runRecordOfScrape now data).min_total_price.isSome ∧
        0 < (runRecordOfScrape now data).rental_days) ∧
    (∀ t, (runRecordOfScrape now data).min_total_price = some t →
      0 < (runRecordOfScrape now data).rental_days →
      (runRecordOfScrape now data).min_price_per_day =
        some (t / (runRecordOfScrape now data).rental_days)) := by
  unfold runRecordOfScrape
  cases hmp : data.min_price with
  | none => simp
  | some t =>
    by_cases hd : 0 < data.rental_days
    · simp [hd]
    · simp [hd]

/-- Witness for C4: a scrape result with a known total and a positive
duration produces the quotient per-day price. -/
theorem C4_witness :
    (runRecordOfScrape "2026-02-01T00:00:00Z"
        { min_price := some 30
          all_prices := [30, 45]
          rental_days := 15
          pickup_date := "2026-02-25"
          dropoff_date := "2026-03-12"
          url := "https://example.test" }).min_price_per_day =
      some ((30 : ℚ) / 15) := by
  have h := C4_scrape_invariant "2026-02-01T00:00:00Z"
    { min_price := some 30
      all_prices := [30, 45]
      rental_days := 15
      pickup_date := "2026-02-25"
      dropoff_date := "2026-03-12"
      url := "https://example.test" }
  exact h.2 30 rfl (by norm_num [runRecordOfScrape])

/-- A syntactically valid ingestion body carrying a per-day price but no
total price and no duration. -/
def perDayOnlyBody : IngestBody :=
  { run_at := none
    pickup_date := some "2026-02-25"
    dropoff_date := some "2026-03-12"
    rental_days := none
    min_total_price := none
    min_price_per_day := some 5
    num_offers := none
    url := none }

/-- Counterexample to C4 as stated: the ingestion path accepts a record
whose per-day price is present while its total price is absent and its
duration is zero, violating the claimed invariant. -/
theorem C4_counterexample :
    ∃ r, ingestRun "2026-02-01T00:00:00Z" perDayOnlyBody = some r ∧
      r.min_price_per_day.isSome = true ∧
      ¬(r.min_total_price.isSome = true ∧ 0 < r.rental_days) := by
  refine ⟨_, rfl, rfl, ?_⟩
  rintro ⟨h1, -⟩
  simp [perDayOnlyBody, ingestRun] at h1

theorem usablePrices_append (l1 l2 : List Run) :
    usablePrices (l1 ++ l2) = usablePrices l1 ++ usablePrices l2 := by
  unfold usablePrices
  rw [List.map_append, List.filterMap_append]

theorem computeStats_eq (runs : List Run) :
    computeStats runs =
      { count := runs.length
        avgPerDay := average (usablePrices runs)
        medianPerDay := median (usablePrices runs)
        p25PerDay := percentile (usablePrices runs) (1 / 4) } := rfl

theorem median_eq (values : List ℚ) :
    median values =
      if values.length = 0 then none
      else if (sortQ values).length % 2 = 1 then
        some ((sortQ values).getD ((sortQ values).length / 2) 0)
      else
        some (((sortQ values).getD ((sortQ values).length / 2 - 1) 0 +
          (sortQ values).getD ((sortQ values).length / 2) 0) / 2) := rfl

theorem sortQ_example2 : sortQ [30, 40, 50, 60, 70] = [(30 : ℚ), 40, 50, 60, 70] := by
  norm_num [sortQ, List.insertionSort, List.orderedInsert]

theorem average_example2 : average [30, 40, 50, 60, 70] = some 50 := by
  unfold average
  norm_num [List.foldl]

theorem median_example2 : median [30, 40, 50, 60, 70] = some 50 := by
  rw [median_eq, sortQ_example2]
  norm_num [List.getD]

theorem percentile_example2 : percentile [30, 40, 50, 60, 70] (1 / 4) = some 40 := by
  have hk : (((sortQ [30, 40, 50, 60, 70]).length : ℚ) - 1) * (1 / 4) = 1 := by
    rw [sortQ_example2]; norm_num
  have hf : ⌊(((sortQ [30, 40, 50, 60, 70]).length : ℚ) - 1) * (1 / 4)⌋ = 1 := by
    rw [hk]; norm_num
  have h := @percentile_floor_case [30, 40, 50, 60, 70] (1 / 4)
    (by simp) (by norm_num) (by norm_num)
    (by rw [hk]; norm_num)
  rw [h, hf, sortQ_example2]
  norm_num [List.getD]

theorem usablePrices_example2 :
    usablePrices ([some 30, some 40, some 50, some 60, some 70].map mkRun) =
      [30, 40, 50, 60, 70] := by
  rw [usablePrices_mkRun]
  norm_num [List.filterMap_cons]

/-- C9: `computeStats` reports the unfiltered record count while the three
price aggregates are the average, median and 25th percentile of the usable
(present, strictly positive) per-day prices only — so appending a record
without a usable price raises the count but leaves every aggregate
unchanged; on per-day values `[30,40,50,60,70]` it yields
`avgPerDay = 50`, `medianPerDay = 50`, `p25PerDay = 40`. -/
theorem C9_computeStats_spec :
    (∀ runs : List Run,
      computeStats runs =
        { count := runs.length
          avgPerDay := average (usablePrices runs)
          medianPerDay := median (usablePrices runs)
          p25PerDay := percentile (usablePrices runs) (1 / 4) }) ∧
    (∀ (runs : List Run) (r : Run), r.min_price_per_day = none →
      computeStats (runs ++ [r]) =
        { count := runs.length + 1
          avgPerDay := (computeStats runs).avgPerDay
          medianPerDay := (computeStats runs).medianPerDay
          p25PerDay := (computeStats runs).p25PerDay }) ∧
    computeStats ([some 30, some 40, some 50, some 60, some 70].map mkRun) =
      { count := 5
        avgPerDay := some 50
        medianPerDay := some 50
        p25PerDay := some 40 } := by
  refine ⟨computeStats_eq, ?_, ?_⟩
  · intro runs r hr
    have hup : usablePrices (runs ++ [r]) = usablePrices runs := by
      rw [usablePrices_append]
      have h1 : usablePrices [r] = [] := by
        unfold usablePrices
        simp [hr]
      rw [h1, List.append_nil]
    rw [computeStats_eq, computeStats_eq, hup, List.length_append]
    simp
  · rw [computeStats_eq, usablePrices_example2, average_example2,
      median_example2, percentile_example2]
    simp

/-- Witness for C9: appending a record with an absent per-day price raises
only the count. -/
theorem C9_witness :
    computeStats ([mkRun (some 30)] ++ [mkRun none]) =
      { count := [mkRun (some 30)].length + 1
        avgPerDay := (computeStats [mkRun (some 30)]).avgPerDay
        medianPerDay := (computeStats [mkRun (some 30)]).medianPerDay
        p25PerDay := (computeStats [mkRun (some 30)]).p25PerDay } :=
  C9_computeStats_spec.2.1 [mkRun (some 30)] (mkRun none) rfl

/-! ## Evaluation lemmas for concrete parses -/

theorem parsePriceText_eval {text tok : List Char} {v : ℚ}
    (hws : text.all isSpaceJS = false)
    (htok : firstRun (normalizedOf text) = some tok)
    (hpf : parseFloatDP tok = some v) :
    parsePriceText text = if 0 < v ∧ v < 100000 then some v else none := by
  unfold parsePriceText
  rw [hws]
  simp only [Bool.false_eq_true, if_false, htok, hpf]

theorem parseFloatDP_concrete (intPart fracPart : List Char) (n m k : ℕ)
    (hds : ∀ c ∈ intPart, c.isDigit = true)
    (hfs : ∀ c ∈ fracPart, c.isDigit = true)
    (hn : digitsToNat intPart = n) (hm : digitsToNat fracPart = m)
    (hk : fracPart.length = k)
    (hne : ¬(intPart.length = 0 ∧ fracPart.length = 0)) :
    parseFloatDP (intPart ++ '.' :: fracPart) =
      some ((n : ℚ) + (m : ℚ) / (10 : ℚ) ^ k) := by
  rw [parseFloatDP_digit_frac hds hfs, if_neg hne, hn, hm, hk]

theorem parseFloatDP_int_concrete (ds : List Char) (n : ℕ)
    (hds : ∀ c ∈ ds, c.isDigit = true) (hn : digitsToNat ds = n)
    (hne : ds.length ≠ 0) : parseFloatDP ds = some ((n : ℚ)) := by
  have hdw : ds.dropWhile Char.isDigit = [] := by
    rw [List.dropWhile_eq_nil_iff]
    exact hds
  rw [parseFloatDP_of_dropWhile_nil hdw, takeWhile_eq_self_of_all hds,
    if_neg hne, hn]

theorem filter_nil_of_all_space {text : List Char}
    (h : text.all isSpaceJS = true) : text.filter isPriceChar = [] := by
  induction text with
  | nil => rfl
  | cons c rest ih =>
    rw [List.all_cons, Bool.and_eq_true] at h
    have hc : isPriceChar c = false := by
      cases hp : isPriceChar c
      · rfl
      · rw [isSpaceJS_eq_false_of_price hp] at h
        exact absurd h.1 (by simp)
    rw [List.filter_cons, hc]
    simp only [Bool.false_eq_true, if_false]
    exact ih h.2

theorem parsePriceText_over_bound : parsePriceText "€123456.78".toList = none := by
  have htok : firstRun (normalizedOf "€123456.78".toList) =
      some ("123456".toList ++ '.' :: "78".toList) := by decide
  have hpf : parseFloatDP ("123456".toList ++ '.' :: "78".toList) =
      some ((123456 : ℕ) + ((78 : ℕ) : ℚ) / (10 : ℚ) ^ 2) :=
    parseFloatDP_concrete _ _ 123456 78 2 (by decide) (by decide) (by decide)
      (by decide) (by decide) (by decide)
  rw [parsePriceText_eval (by decide) htok hpf, if_neg]
  push_cast
  intro hcon
  norm_num at hcon

theorem parsePriceText_zero : parsePriceText "0.00 €".toList = none := by
  have htok : firstRun (normalizedOf "0.00 €".toList) =
      some ("0".toList ++ '.' :: "00".toList) := by decide
  have hpf : parseFloatDP ("0".toList ++ '.' :: "00".toList) =
      some ((0 : ℕ) + ((0 : ℕ) : ℚ) / (10 : ℚ) ^ 2) :=
    parseFloatDP_concrete _ _ 0 0 2 (by decide) (by decide) (by decide)
      (by decide) (by decide) (by decide)
  rw [parsePriceText_eval (by decide) htok hpf, if_neg]
  push_cast
  intro hcon
  norm_num at hcon

/-- C6: for every input string, `parsePriceText` is present exactly when
the extracted token parses to a positive number strictly below 100000, and
absent in every other case: empty input, pure letters, too-large values and
non-positive values all yield absent, and the function is total (never
throws). -/
theorem C6_parsePrice_total :
    (∀ (text : List Char) (v : ℚ),
      parsePriceText text = some v ↔
        ∃ tok, firstRun (normalizedOf text) = some tok ∧
          parseFloatDP tok = some v ∧ 0 < v ∧ v < 100000) ∧
    parsePriceText [] = none ∧
    parsePriceText "abc".toList = none ∧
    parsePriceText "€123456.78".toList = none ∧
    parsePriceText "0.00 €".toList = none := by
  refine ⟨?_, rfl, rfl, parsePriceText_over_bound, parsePriceText_zero⟩
  intro text v
  constructor
  · intro h
    unfold parsePriceText at h
    by_cases hws : text.all isSpaceJS = true
    · rw [if_pos hws] at h
      exact absurd h (by simp)
    · rw [if_neg hws] at h
      cases hfr : firstRun (normalizedOf text) with
      | none =>
        rw [hfr] at h
        exact absurd h (by simp)
      | some tok =>
        rw [hfr] at h
        dsimp only at h
        cases hpf : parseFloatDP tok with
        | none =>
          rw [hpf] at h
          exact absurd h (by simp)
        | some w =>
          rw [hpf] at h
          dsimp only at h
          by_cases hcond : 0 < w ∧ w < 100000
          · rw [if_pos hcond] at h
            have hwv : w = v := by
              injection h
            subst hwv
            exact ⟨tok, rfl, hpf, hcond.1, hcond.2⟩
          · rw [if_neg hcond] at h
            exact absurd h (by simp)
  · rintro ⟨tok, hfr, hpf, h3, h4⟩
    have hws : text.all isSpaceJS = false := by
      by_contra hcon
      have hws' : text.all isSpaceJS = true := by
        cases hx : text.all isSpaceJS
        · exact absurd hx hcon
        · rfl
      have hnil : text.filter isPriceChar = [] := filter_nil_of_all_space hws'
      rw [normalizedOf, hnil] at hfr
      exact absurd hfr (by simp [replaceFirstComma, firstRun])
    rw [parsePriceText_eval hws hfr hpf, if_pos ⟨h3, h4⟩]

/-- Witness for C6: the characterization applied at a concrete accepted
price text. -/
theorem C6_witness : parsePriceText "€45.00".toList = some 45 := by
  apply (C6_parsePrice_total.1 "€45.00".toList 45).mpr
  refine ⟨"45".toList ++ '.' :: "00".toList, by decide, ?_, by norm_num, by norm_num⟩
  have hpf := parseFloatDP_concrete "45".toList "00".toList 45 0 2 (by decide)
    (by decide) (by decide) (by decide) (by decide) (by decide)
  rw [hpf]
  norm_num

/-! ## Concrete pages -/

/-- A page whose structural probes yield overlapping duplicate price texts. -/
def dupPage : Page :=
  { probeTexts := fun sel =>
      if sel = "[data-testid*=\"price\"]" then
        some ["€10".toList, "€10".toList, "€20".toList]
      else some []
    bodyText := [] }

/-- A page where no structural probe matches anything but the body text
carries two currency-anchored prices. -/
def euroPage : Page :=
  { probeTexts := fun _ => some []
    bodyText := "€45.00 total, save with €38.50".toList }

theorem parsePriceText_ten : parsePriceText "€10".toList = some 10 := by
  have htok : firstRun (normalizedOf "€10".toList) = some "10".toList := by decide
  have hpf : parseFloatDP "10".toList = some ((10 : ℕ) : ℚ) :=
    parseFloatDP_int_concrete _ 10 (by decide) (by decide) (by decide)
  rw [parsePriceText_eval (by decide) htok hpf, if_pos (by norm_num)]
  norm_num

theorem parsePriceText_twenty : parsePriceText "€20".toList = some 20 := by
  have htok : firstRun (normalizedOf "€20".toList) = some "20".toList := by decide
  have hpf : parseFloatDP "20".toList = some ((20 : ℕ) : ℚ) :=
    parseFloatDP_int_concrete _ 20 (by decide) (by decide) (by decide)
  rw [parsePriceText_eval (by decide) htok hpf, if_pos (by norm_num)]
  norm_num

theorem collectStructural_dupPage : collectStructural dupPage = [10, 20] := by
  have hp1 : dupPage.probeTexts "[data-testid*=\"price\"]" =
      some ["€10".toList, "€10".toList, "€20".toList] := rfl
  have hp2 : dupPage.probeTexts "[data-testid*=\"total\"]" = some [] := rfl
  have hp3 : dupPage.probeTexts ".price" = some [] := rfl
  have hp4 : dupPage.probeTexts ".totalPrice" = some [] := rfl
  have hp5 : dupPage.probeTexts "[class*=\"Price\"]" = some [] := rfl
  have hp6 : dupPage.probeTexts "[class*=\"price\"]" = some [] := rfl
  have hp7 : dupPage.probeTexts "span[class*=\"amount\"]" = some [] := rfl
  have ha1 : addPrice [] 10 = [10] := by simp [addPrice]
  have ha2 : addPrice [10] 10 = [10] := by simp [addPrice]
  have ha3 : addPrice [10] 20 = [10, 20] := by norm_num [addPrice]
  simp only [collectStructural, selectors, List.foldl_cons, List.foldl_nil,
    hp1, hp2, hp3, hp4, hp5, hp6, hp7, parsePriceText_ten, parsePriceText_twenty,
    ha1, ha2, ha3]

theorem extract_dupPage : extractPricesFromPage dupPage = [10, 20] := by
  rw [extractPricesFromPage_eq, collectStructural_dupPage]
  rw [if_neg (by norm_num)]
  norm_num [sortQ, List.insertionSort, List.orderedInsert]

/-- C7: for every document, the extracted price sequence is in strictly
ascending order (ascending and duplicate-free); the minimum reported for
the run is its first element when non-empty; and overlapping probes that
yield `[10, 10, 20]` produce `[10, 20]`. -/
theorem C7_extract_sorted_distinct :
    (∀ page : Page, List.Pairwise (· < ·) (extractPricesFromPage page)) ∧
    (∀ page : Page,
      minPrice (extractPricesFromPage page) = (extractPricesFromPage page).head?) ∧
    extractPricesFromPage dupPage = [10, 20] :=
  ⟨extractPrices_strict_sorted,
   fun page => minPrice_eq_head_of_sorted (extractPrices_sorted page),
   extract_dupPage⟩

theorem fallbackParse_45 : fallbackParse "45.00".toList = some 45 := by
  have hrep : replaceFirstComma "45.00".toList = "45".toList ++ '.' :: "00".toList := by
    decide
  have hpf := parseFloatDP_concrete "45".toList "00".toList 45 0 2 (by decide)
    (by decide) (by decide) (by decide) (by decide) (by decide)
  unfold fallbackParse
  rw [hrep, hpf]
  dsimp only
  rw [if_pos (by norm_num)]
  norm_num

theorem fallbackParse_3850 : fallbackParse "38.50".toList = some (77 / 2) := by
  have hrep : replaceFirstComma "38.50".toList = "38".toList ++ '.' :: "50".toList := by
    decide
  have hpf := parseFloatDP_concrete "38".toList "50".toList 38 50 2 (by decide)
    (by decide) (by decide) (by decide) (by decide) (by decide)
  unfold fallbackParse
  rw [hrep, hpf]
  dsimp only
  rw [if_pos (by norm_num)]
  norm_num

theorem scanEuro_euroPage :
    scanEuro euroPage.bodyText = ["45.00".toList, "38.50".toList] := by decide

theorem collectStructural_euroPage : collectStructural euroPage = [] := rfl

theorem extract_euroPage : extractPricesFromPage euroPage = [38.5, 45] := by
  have ha1 : addPrice [] 45 = [45] := by simp [addPrice]
  have ha2 : addPrice [45] (77 / 2) = [45, 77 / 2] := by norm_num [addPrice]
  have hcf : collectFallback [] euroPage.bodyText = [45, 77 / 2] := by
    unfold collectFallback
    rw [scanEuro_euroPage]
    simp only [List.foldl_cons, List.foldl_nil, fallbackParse_45,
      fallbackParse_3850, ha1, ha2]
  rw [extractPricesFromPage_eq, collectStructural_euroPage]
  simp only [List.length_nil, if_true, ite_true]
  rw [hcf]
  have hsort : sortQ [45, 77 / 2] = [(77 / 2 : ℚ), 45] := by
    norm_num [sortQ, List.insertionSort, List.orderedInsert]
  rw [hsort]
  norm_num

/-- C8: the full-text fallback runs only when structural probing yields
nothing; on every token the fallback regex can capture, its inline
parse/validate/bounds rule agrees exactly with `parsePriceText`; and the
example body with no structural matches yields `[38.5, 45]`. -/
theorem C8_fallback_refinement :
    (∀ page : Page, collectStructural page ≠ [] →
      extractPricesFromPage page = sortQ (collectStructural page)) ∧
    (∀ (body g : List Char), g ∈ scanEuro body →
      fallbackParse g = parsePriceText g) ∧
    extractPricesFromPage euroPage = [38.5, 45] := by
  refine ⟨?_, ?_, extract_euroPage⟩
  · intro page hne
    rw [extractPricesFromPage_eq,
      if_neg (fun h => hne (List.length_eq_zero.mp h))]
  · intro body g hg
    obtain ⟨hne, hall⟩ := scanEuro_tokens body g hg
    exact fallbackParse_eq_parsePriceText hne hall

/-- Witness for C8: the structural-nonempty branch at the duplicate page,
and the token equivalence at a concrete captured token. -/
theorem C8_witness :
    extractPricesFromPage dupPage = sortQ (collectStructural dupPage) ∧
    fallbackParse "45.00".toList = parsePriceText "45.00".toList := by
  constructor
  · apply C8_fallback_refinement.1 dupPage
    rw [collectStructural_dupPage]
    simp
  · exact C8_fallback_refinement.2.1 euroPage.bodyText "45.00".toList
      (by rw [scanEuro_euroPage]; simp)

/-! ## Helper lemmas: formatting and the round trip -/

theorem digit_ne_comma {ch : Char} (h : ch.isDigit = true) : ch ≠ ',' := by
  intro hEq
  subst hEq
  exact absurd h (by decide)

theorem isPriceChar_of_digit {ch : Char} (h : ch.isDigit = true) :
    isPriceChar ch = true := by
  simp [isPriceChar, h]

theorem groupAux_short (sep : Char) :
    ∀ l : List Char, l.length ≤ 3 → groupAux sep l 0 = l := by
  intro l
  rcases l with _ | ⟨a, _ | ⟨b, _ | ⟨c, _ | ⟨d, t⟩⟩⟩⟩
  · intro _; rfl
  · intro _; simp [groupAux]
  · intro _; simp [groupAux]
  · intro _; simp [groupAux]
  · intro h; simp at h

theorem groupThousands_short (sep : Char) {ds : List Char}
    (h : ds.length ≤ 3) : groupThousands sep ds = ds := by
  unfold groupThousands
  rw [groupAux_short sep ds.reverse (by rw [List.length_reverse]; exact h),
    List.reverse_reverse]

theorem natDigsAux_length :
    ∀ fuel n k, n ≤ fuel → n < 10 ^ k → (natDigsAux fuel n).length ≤ k := by
  intro fuel
  induction fuel with
  | zero =>
    intro n k hn _
    interval_cases n
    simp [natDigsAux]
  | succ f ih =>
    intro n k hn hk
    by_cases h0 : n = 0
    · subst h0; simp [natDigsAux]
    · rw [natDigsAux, if_neg h0, List.length_append]
      have hk1 : 1 ≤ k := by
        by_contra hcon
        push_neg at hcon
        interval_cases k
        simp at hk
        omega
      have hdiv10 : n / 10 < 10 ^ (k - 1) := by
        rw [Nat.div_lt_iff_lt_mul (by omega)]
        calc n < 10 ^ k := hk
          _ = 10 ^ (k - 1) * 10 := by
            rw [← Nat.pow_succ]
            congr 1
            omega
      have hfuel : n / 10 ≤ f := by
        have h1 : n / 10 < n := Nat.div_lt_self (Nat.pos_of_ne_zero h0) (by omega)
        omega
      have := ih (n / 10) (k - 1) hfuel hdiv10
      simp only [List.length_cons, List.length_nil]
      omega

theorem natStr_length_le_three {e : ℕ} (he : e < 1000) :
    (natStr e).length ≤ 3 := by
  by_cases h0 : e = 0
  · subst h0; simp [natStr]
  · rw [natStr, if_neg h0]
    exact natDigsAux_length e e 3 le_rfl (by omega)

/-- Shared core of the round trip: a text whose normalization is a
digit-run, a period, then a digit-run parses to the corresponding decimal
value whenever that value passes the validity gate. -/
theorem parsePriceText_of_normalized {text ds dd : List Char} {n m : ℕ}
    (hws : text.all isSpaceJS = false)
    (htext : normalizedOf text = ds ++ '.' :: dd)
    (hne : ds ≠ [])
    (hds : ∀ c ∈ ds, c.isDigit = true) (hdd : ∀ c ∈ dd, c.isDigit = true)
    (hn : digitsToNat ds = n) (hm : digitsToNat dd = m)
    (hv0 : 0 < (n : ℚ) + (m : ℚ) / (10 : ℚ) ^ dd.length)
    (hv1 : (n : ℚ) + (m : ℚ) / (10 : ℚ) ^ dd.length < 100000) :
    parsePriceText text = some ((n : ℚ) + (m : ℚ) / (10 : ℚ) ^ dd.length) := by
  obtain ⟨d0, ds', rfl⟩ := List.exists_cons_of_ne_nil hne
  have hall : ∀ c ∈ (d0 :: ds') ++ '.' :: dd, isDigitDot c = true := by
    intro c hc
    rcases List.mem_append.mp hc with h1 | h1
    · exact isDigitDot_of_digit (hds c h1)
    · rcases List.mem_cons.mp h1 with h2 | h2
      · subst h2; decide
      · exact isDigitDot_of_digit (hdd c h2)
  have htok : firstRun (normalizedOf text) = some ((d0 :: ds') ++ '.' :: dd) := by
    rw [htext]
    rw [List.cons_append]
    rw [firstRun_eq_takeWhile (hall d0 (by simp))]
    rw [← List.cons_append]
    rw [takeWhile_eq_self_of_all hall]
  have hpf : parseFloatDP ((d0 :: ds') ++ '.' :: dd) =
      some ((n : ℚ) + (m : ℚ) / (10 : ℚ) ^ dd.length) := by
    rw [parseFloatDP_digit_frac hds hdd, if_neg (by simp), hn, hm]
  rw [parsePriceText_eval hws htok hpf, if_pos ⟨hv0, hv1⟩]

theorem format_all_isSpaceJS_false (l : List Char) :
    ('€' :: l).all isSpaceJS = false := by
  rw [List.all_cons]
  simp [show isSpaceJS '€' = false from by decide]

theorem filter_price_euro_cons (l : List Char) :
    ('€' :: l).filter isPriceChar = l.filter isPriceChar := by
  rw [List.filter_cons]
  simp [show isPriceChar '€' = false from by decide]

theorem normalizedOf_formatDot {e c : ℕ} (he : e < 1000) (hc : c < 100) :
    normalizedOf (formatDotStyle e c) = natStr e ++ '.' :: twoDig c := by
  unfold formatDotStyle normalizedOf
  rw [groupThousands_short ',' (natStr_length_le_three he),
    filter_price_euro_cons]
  have hfil : (natStr e ++ '.' :: twoDig c).filter isPriceChar =
      natStr e ++ '.' :: twoDig c := by
    apply List.filter_eq_self.mpr
    intro a ha
    rcases List.mem_append.mp ha with h1 | h1
    · exact isPriceChar_of_digit (natStr_all_digit e a h1)
    · rcases List.mem_cons.mp h1 with h2 | h2
      · subst h2; decide
      · exact isPriceChar_of_digit (twoDig_all_digit hc a h2)
  rw [hfil]
  apply replaceFirstComma_of_no_comma
  intro a ha
  rcases List.mem_append.mp ha with h1 | h1
  · exact digit_ne_comma (natStr_all_digit e a h1)
  · rcases List.mem_cons.mp h1 with h2 | h2
    · subst h2; decide
    · exact digit_ne_comma (twoDig_all_digit hc a h2)

theorem normalizedOf_formatComma {e c : ℕ} (he : e < 1000) (hc : c < 100) :
    normalizedOf (formatCommaStyle e c) = natStr e ++ '.' :: twoDig c := by
  unfold formatCommaStyle normalizedOf
  rw [groupThousands_short '.' (natStr_length_le_three he),
    filter_price_euro_cons]
  have hfil : (natStr e ++ ',' :: twoDig c).filter isPriceChar =
      natStr e ++ ',' :: twoDig c := by
    apply List.filter_eq_self.mpr
    intro a ha
    rcases List.mem_append.mp ha with h1 | h1
    · exact isPriceChar_of_digit (natStr_all_digit e a h1)
    · rcases List.mem_cons.mp h1 with h2 | h2
      · subst h2; decide
      · exact isPriceChar_of_digit (twoDig_all_digit hc a h2)
  rw [hfil]
  apply replaceFirstComma_append_comma
  intro a ha
  exact digit_ne_comma (natStr_all_digit e a ha)

/-- C3 (amended): the format/parse round trip holds exactly, in both
separator styles, for positive amounts below 1000 (where no thousands
separator appears); for larger amounts the thousands separator causes a
misparse, see the counterexample. -/
theorem C3_roundtrip_small (e c : ℕ) (he : e < 1000) (hc : c < 100)
    (hpos : 0 < e + c) :
    parsePriceText (formatDotStyle e c) = some ((e : ℚ) + (c : ℚ) / 100) ∧
    parsePriceText (formatCommaStyle e c) = some ((e : ℚ) + (c : ℚ) / 100) := by
  have hlen : (twoDig c).length = 2 := rfl
  have hv0 : 0 < (e : ℚ) + (c : ℚ) / (10 : ℚ) ^ (twoDig c).length := by
    rw [hlen]
    rcases Nat.eq_zero_or_pos e with h0 | h0
    · subst h0
      have hcpos : 0 < c := by omega
      have h1 : (0 : ℚ) < (c : ℚ) := by exact_mod_cast hcpos
      have h2 : (0 : ℚ) < (c : ℚ) / 10 ^ 2 := div_pos h1 (by norm_num)
      push_cast
      linarith
    · have h1 : (1 : ℚ) ≤ (e : ℚ) := by exact_mod_cast h0
      have h2 : (0 : ℚ) ≤ (c : ℚ) / 10 ^ 2 := by positivity
      linarith
  have hv1 : (e : ℚ) + (c : ℚ) / (10 : ℚ) ^ (twoDig c).length < 100000 := by
    rw [hlen]
    have h1 : (e : ℚ) < 1000 := by exact_mod_cast he
    have h2 : (c : ℚ) < 100 := by exact_mod_cast hc
    have h3 : (c : ℚ) / 10 ^ 2 < 1 := by
      rw [div_lt_one (by norm_num)]
      norm_num
      linarith
    linarith
  constructor
  · have h := parsePriceText_of_normalized (format_all_isSpaceJS_false _)
      (normalizedOf_formatDot he hc) (natStr_ne_nil e) (natStr_all_digit e)
      (twoDig_all_digit hc) (digitsToNat_natStr e) (digitsToNat_twoDig hc)
      hv0 hv1
    rw [formatDotStyle, h, hlen]
    norm_num
  · have h := parsePriceText_of_normalized (format_all_isSpaceJS_false _)
      (normalizedOf_formatComma he hc) (natStr_ne_nil e) (natStr_all_digit e)
      (twoDig_all_digit hc) (digitsToNat_natStr e) (digitsToNat_twoDig hc)
      hv0 hv1
    rw [formatCommaStyle, h, hlen]
    norm_num

/-- Witness for C3: 38 euros 50 cents survives the round trip in both
styles. -/
theorem C3_witness :
    parsePriceText (formatDotStyle 38 50) = some ((38 : ℚ) + (50 : ℚ) / 100) ∧
    parsePriceText (formatCommaStyle 38 50) = some ((38 : ℚ) + (50 : ℚ) / 100) :=
  C3_roundtrip_small 38 50 (by norm_num) (by norm_num) (by norm_num)

/-- Counterexample to C3 as stated: 1234.56 formatted in either style
parses back as 1.234 (the single comma-to-period substitution turns the
thousands separator into a decimal point, or collides with it), an error of
more than 1000 — far beyond any floating rounding tolerance. -/
theorem C3_counterexample :
    parsePriceText (formatCommaStyle 1234 56) = some (617 / 500) ∧
    parsePriceText (formatDotStyle 1234 56) = some (617 / 500) ∧
    (617 / 500 : ℚ) ≠ (1234 : ℚ) + 56 / 100 ∧
    (617 / 500 : ℚ) + 1000 < (1234 : ℚ) + 56 / 100 := by
  have hfmt1 : formatCommaStyle 1234 56 = "€1.234,56".toList := by decide
  have hfmt2 : formatDotStyle 1234 56 = "€1,234.56".toList := by decide
  have htok1 : firstRun (normalizedOf "€1.234,56".toList) =
      some "1.234.56".toList := by decide
  have htok2 : firstRun (normalizedOf "€1,234.56".toList) =
      some "1.234.56".toList := by decide
  have hdw : ("1.234.56".toList).dropWhile Char.isDigit =
      '.' :: "234.56".toList := by decide
  have hpf : parseFloatDP "1.234.56".toList =
      some (((1 : ℕ) : ℚ) + ((234 : ℕ) : ℚ) / (10 : ℚ) ^ 3) := by
    rw [parseFloatDP_of_dropWhile_dot hdw,
      show ("1.234.56".toList).takeWhile Char.isDigit = "1".toList from by decide,
      show ("234.56".toList).takeWhile Char.isDigit = "234".toList from by decide,
      if_neg (by decide),
      show digitsToNat "1".toList = 1 from by decide,
      show digitsToNat "234".toList = 234 from by decide,
      show ("234".toList).length = 3 from by decide]
  have hval1 : parsePriceText "€1.234,56".toList = some (617 / 500) := by
    rw [parsePriceText_eval (by decide) htok1 hpf, if_pos (by push_cast; norm_num)]
    push_cast
    norm_num
  have hval2 : parsePriceText "€1,234.56".toList = some (617 / 500) := by
    rw [parsePriceText_eval (by decide) htok2 hpf, if_pos (by push_cast; norm_num)]
    push_cast
    norm_num
  refine ⟨by rw [hfmt1]; exact hval1, by rw [hfmt2]; exact hval2,
    by norm_num, by norm_num⟩

end RentalCar
